import Mathlib

/-!
Shallow embedding of the text wrapping engine in
`src/text2longimage/src/lib.rs` (crate `text2longimage`).

Strings are modelled as `List Char` (a Rust `&str`/`String` viewed as its
sequence of Unicode scalar values); Rust byte positions and byte lengths are
recovered through the UTF-8 encoded size of each character (`utf8Len`).
Rust `u32` quantities (`max_chars_per_line`, `chunk_size`, accumulated
widths and lengths) are modelled as `Nat`; none of the loops can bring them
anywhere near `2^32` for inputs of sane size, and the claims under study do
not concern 32-bit wraparound.

`process_text_chunks` contains a `while` loop that does not terminate when
`chunk_size = 0` and panics when a chunk boundary falls inside a multi-byte
character, so it is modelled with explicit fuel and result type
`Option (Option (List Char))`:
  * `none`            — the loop is still running when the fuel runs out
                        (with the fuel used by `process_text_chunks` this
                        only happens on genuinely divergent inputs, see
                        `chunkLoop_zero_stuck`);
  * `some none`       — a string-slice panic: `&text[start..end]` with `end`
                        not on a character boundary;
  * `some (some s)`   — normal return of the string `s`.
All other functions are direct total translations.
-/

/-- UTF-8 encoded size in bytes of one Unicode scalar value
(Rust `char::len_utf8`). -/
def utf8Len (c : Char) : Nat :=
  if c.toNat ≤ 0x7F then 1
  else if c.toNat ≤ 0x7FF then 2
  else if c.toNat ≤ 0xFFFF then 3
  else 4

/-- Rust `str::len`: the UTF-8 byte length of a string. -/
def byteLen (l : List Char) : Nat := (l.map utf8Len).sum

/-- Rust `char::is_whitespace` — the Unicode White_Space property, the
separator set used by `str::trim` and `str::split_whitespace`. -/
def isRustWhitespace (c : Char) : Bool :=
  decide (c.toNat = 0x20 ∨ (0x9 ≤ c.toNat ∧ c.toNat ≤ 0xD) ∨ c.toNat = 0x85 ∨
    c.toNat = 0xA0 ∨ c.toNat = 0x1680 ∨ (0x2000 ≤ c.toNat ∧ c.toNat ≤ 0x200A) ∨
    c.toNat = 0x2028 ∨ c.toNat = 0x2029 ∨ c.toNat = 0x202F ∨ c.toNat = 0x205F ∨
    c.toNat = 0x3000)

/-- `is_cjk_char` (lib.rs 27-57): the five inclusive code-point ranges,
tested in the order of the source. -/
def is_cjk_char (c : Char) : Bool :=
  if 0x4E00 ≤ c.toNat ∧ c.toNat ≤ 0x9FFF then true
  else if 0x3040 ≤ c.toNat ∧ c.toNat ≤ 0x309F then true
  else if 0x30A0 ≤ c.toNat ∧ c.toNat ≤ 0x30FF then true
  else if 0x3400 ≤ c.toNat ∧ c.toNat ≤ 0x4DBF then true
  else if 0x20000 ≤ c.toNat ∧ c.toNat ≤ 0x2A6DF then true
  else false

/-- `is_cjk` (lib.rs 62-64): `text.chars().any(is_cjk_char)`. -/
def is_cjk (text : List Char) : Bool := text.any is_cjk_char

/-- `get_char_width` (lib.rs 69-79): width 1 for code points `≤ 0xFF`,
else 2. -/
def get_char_width (c : Char) : Nat :=
  if c.toNat ≤ 0xFF then 1 else 2

/-- The loop of `justify_text_cjk` (lib.rs 88-114), written as recursion on
the remaining characters; `curw` is `current_line_width` and the returned
list is the text appended to `result` from this state on.  Note the source
pushes the two-character sequence for each of `\r` and `\n` separately. -/
def justify_text_cjk_go (w : Nat) : Nat → List Char → List Char
  | _, [] => []
  | curw, c :: cs =>
    if c = '\r' ∨ c = '\n' then
      '\r' :: '\n' :: justify_text_cjk_go w 0 cs
    else if curw + get_char_width c > w then
      '\r' :: '\n' :: c :: justify_text_cjk_go w (get_char_width c) cs
    else
      c :: justify_text_cjk_go w (curw + get_char_width c) cs

/-- `justify_text_cjk` (lib.rs 84-117). -/
def justify_text_cjk (text : List Char) (w : Nat) : List Char :=
  justify_text_cjk_go w 0 text

/-- Prepend a character to the first part of a partition (helper for the
splitting functions). -/
def consHead (c : Char) : List (List Char) → List (List Char)
  | [] => [[c]]
  | h :: t => (c :: h) :: t

/-- Split a string at every character satisfying `p`, keeping empty parts:
the semantics of Rust `str::split` with a one-character pattern.  The result
is always non-empty (`n` separators give `n + 1` parts). -/
def splitOnPred (p : Char → Bool) : List Char → List (List Char)
  | [] => [[]]
  | c :: rest =>
    if p c then [] :: splitOnPred p rest
    else consHead c (splitOnPred p rest)

/-- Rust `str::split_whitespace`: split on runs of Unicode whitespace and
keep only the non-empty tokens. -/
def split_whitespace (l : List Char) : List (List Char) :=
  (splitOnPred isRustWhitespace l).filter (fun wrd => !wrd.isEmpty)

/-- Rust `str::trim`: drop leading and trailing Unicode whitespace. -/
def rustTrim (l : List Char) : List Char :=
  ((l.dropWhile isRustWhitespace).reverse.dropWhile isRustWhitespace).reverse

/-- `lines.join("\r\n")`: interleave the canonical terminator between the
parts. -/
def intercalateCRLF : List (List Char) → List Char
  | [] => []
  | [x] => x
  | x :: y :: xs => x ++ '\r' :: '\n' :: intercalateCRLF (y :: xs)

/-- The word loop of `justify_text_english` (lib.rs 127-150): `cur` is
`current_line`; the result is the final `lines` vector (the flush of a
non-empty `cur` at the end included). -/
def englishLines (w : Nat) : List (List Char) → List Char → List (List Char)
  | [], cur => if cur = [] then [] else [cur]
  | word :: ws, cur =>
    if byteLen cur + (if cur = [] then 0 else 1) + byteLen word ≤ w then
      englishLines w ws (cur ++ (if cur = [] then [] else [' ']) ++ word)
    else if cur = [] then
      englishLines w ws word
    else
      cur :: englishLines w ws word

/-- `justify_text_english` (lib.rs 122-153). -/
def justify_text_english (text : List Char) (w : Nat) : List Char :=
  intercalateCRLF (englishLines w (split_whitespace text) [])

/-- The per-logical-line body of `justify_text` (lib.rs 162-176): trim,
emit an empty line for blank input, otherwise dispatch on `is_cjk`. -/
def justifyLine (w : Nat) (line : List Char) : List Char :=
  if rustTrim line = [] then []
  else if is_cjk (rustTrim line) then justify_text_cjk (rustTrim line) w
  else justify_text_english (rustTrim line) w

/-- `justify_text` (lib.rs 158-179): split on `\n`, justify each logical
line, join with the canonical terminator. -/
def justify_text (text : List Char) (w : Nat) : List Char :=
  intercalateCRLF ((splitOnPred (fun c => decide (c = '\n')) text).map (justifyLine w))

/-- Rust byte slicing `&text[n..]` together with `&text[..n]`: split the
string at byte offset `n`.  Returns `none` exactly when `n` falls strictly
inside the UTF-8 encoding of a character — the situation in which the Rust
slice panics. -/
def splitAtBytes : Nat → List Char → Option (List Char × List Char)
  | 0, l => some ([], l)
  | _ + 1, [] => none
  | n + 1, c :: cs =>
    if utf8Len c ≤ n + 1 then
      match splitAtBytes (n + 1 - utf8Len c) cs with
      | some (a, b) => some (c :: a, b)
      | none => none
    else none

/-- `justified_chunk.ends_with("\r\n")` (lib.rs 220). -/
def endsWithCRLF (l : List Char) : Bool :=
  match l.reverse with
  | '\n' :: '\r' :: _ => true
  | _ => false

/-- The `while start < text_len` loop of `process_text_chunks`
(lib.rs 212-225), recursing on the not-yet-processed suffix `rest` with
explicit fuel (the loop makes no progress when `chunk_size = 0`).
`none` = out of fuel, `some none` = slice panic, `some (some s)` = the text
appended to `result` by the remaining iterations. -/
def chunkLoop (w chunkSize : Nat) : Nat → List Char → Option (Option (List Char))
  | 0, rest => if rest = [] then some (some []) else none
  | fuel + 1, rest =>
    if rest = [] then some (some [])
    else if byteLen rest ≤ chunkSize then
      some (some (justify_text rest w))
    else
      match splitAtBytes chunkSize rest with
      | none => some none
      | some (chunk, rest2) =>
        match chunkLoop w chunkSize fuel rest2 with
        | none => none
        | some none => some none
        | some (some tail) =>
          some (some (justify_text chunk w ++
            (if endsWithCRLF (justify_text chunk w) then [] else ['\r', '\n']) ++ tail))

/-- `process_text_chunks` (lib.rs 200-228).  `byteLen text` is enough fuel:
with a positive `chunk_size` every iteration consumes at least one
character (`chunkLoop_pos_size_total`), so `none` is returned only on the
inputs on which the Rust loop runs forever. -/
def process_text_chunks (text : List Char) (w chunkSize : Nat) :
    Option (Option (List Char)) :=
  if byteLen text ≤ chunkSize then some (some (justify_text text w))
  else chunkLoop w chunkSize (byteLen text) text

/-- `calculate_text_width` (lib.rs 233-235). -/
def calculate_text_width (text : List Char) : Nat :=
  (text.map get_char_width).sum

/-- `validate_text_input` (lib.rs 240-250).  Note the size check is
`text.len() > 500_000`, a BYTE count. -/
def validate_text_input (text : List Char) : String :=
  if text = [] then "Text cannot be empty"
  else if 500000 < byteLen text then
    "Text too large: maximum 500,000 characters supported"
  else ""

/-- Remove one trailing `\r` (the per-line post-processing of
Rust `str::lines`). -/
def stripTrailingCR (l : List Char) : List Char :=
  if l.getLast? = some '\r' then l.dropLast else l

/-- Rust `str::lines`: split on `\n` with terminator semantics (a final
empty part is dropped), then strip one trailing `\r` from each line. -/
def rustLines (l : List Char) : List (List Char) :=
  (if (splitOnPred (fun c => decide (c = '\n')) l).getLast? = some [] then
    (splitOnPred (fun c => decide (c = '\n')) l).dropLast
   else splitOnPred (fun c => decide (c = '\n')) l).map stripTrailingCR

/-- The record of numbers interpolated into the JSON string built by
`get_text_stats` (lib.rs 255-281). -/
structure TextStats where
  charCount : Nat
  byteCount : Nat
  lineCount : Nat
  cjkCount : Nat
  asciiCount : Nat
  displayWidth : Nat
  hasCjk : Bool
deriving Repr, DecidableEq

/-- `get_text_stats` (lib.rs 255-281), with each field computed exactly as
in the source (`lineCount` is `text.lines().count()`). -/
def get_text_stats (text : List Char) : TextStats :=
  { charCount := text.length
    byteCount := byteLen text
    lineCount := (rustLines text).length
    cjkCount := (text.filter is_cjk_char).length
    asciiCount := (text.filter (fun c => decide (c.toNat ≤ 0xFF))).length
    displayWidth := calculate_text_width text
    hasCjk := is_cjk text }

/-- The output lines of a justified string: split at every occurrence of
the two-character sequence `\r\n`. -/
def splitCRLF : List Char → List (List Char)
  | [] => [[]]
  | c :: rest =>
    if c = '\r' then
      match rest with
      | c2 :: rest2 =>
        if c2 = '\n' then [] :: splitCRLF rest2
        else consHead c (splitCRLF (c2 :: rest2))
      | [] => consHead c (splitCRLF [])
    else consHead c (splitCRLF rest)

/-- The display width of an output line: the sum of `get_char_width` over
its characters. -/
def lineWidth (l : List Char) : Nat := (l.map get_char_width).sum

/-- Every `\r` in the string is immediately followed by `\n` and every `\n`
is immediately preceded by `\r`: all line terminators present are the
canonical two-character CRLF. -/
def crlfOnly : List Char → Bool
  | [] => true
  | c :: rest =>
    if c = '\n' then false
    else if c = '\r' then
      match rest with
      | c2 :: rest2 => if c2 = '\n' then crlfOnly rest2 else false
      | [] => false
    else crlfOnly rest

example : justify_text "hello world".data 5 = "hello\r\nworld".data := by decide
example : justify_text ['你', '好', '世', '界'] 2 =
    ['你', '\r', '\n', '好', '\r', '\n', '世', '\r', '\n', '界'] := by decide
example : process_text_chunks ['你', '好'] 10 1 = some none := by decide
example : process_text_chunks ['a'] 5 0 = none := by decide
example : (get_text_stats ['a', '\n']).lineCount = 1 := by decide
example : justify_text_cjk ['一', '\r', '\n', '二'] 10 =
    ['一', '\r', '\n', '\r', '\n', '二'] := by decide
example : splitCRLF ['a', '\r', '\n', 'b'] = [['a'], ['b']] := by decide
example : crlfOnly ['a', '\r', '\n', 'b'] = true := by decide
example : crlfOnly ['a', '\r', 'b'] = false := by decide
example : justify_text_english "supercalifragilisticexpialidocious and others".data 5 =
    "supercalifragilisticexpialidocious\r\nand\r\nothers".data := by decide

/-- C5: `is_cjk_char` returns `true` exactly on the five inclusive
code-point ranges U+4E00-U+9FFF, U+3040-U+309F, U+30A0-U+30FF,
U+3400-U+4DBF and U+20000-U+2A6DF. -/
theorem is_cjk_char_iff_ranges (c : Char) :
    is_cjk_char c = true ↔
      ((0x4E00 ≤ c.toNat ∧ c.toNat ≤ 0x9FFF) ∨
       (0x3040 ≤ c.toNat ∧ c.toNat ≤ 0x309F) ∨
       (0x30A0 ≤ c.toNat ∧ c.toNat ≤ 0x30FF) ∨
       (0x3400 ≤ c.toNat ∧ c.toNat ≤ 0x4DBF) ∨
       (0x20000 ≤ c.toNat ∧ c.toNat ≤ 0x2A6DF)) := by
  unfold is_cjk_char
  by_cases h1 : 0x4E00 ≤ c.toNat ∧ c.toNat ≤ 0x9FFF
  · simp [h1]
  by_cases h2 : 0x3040 ≤ c.toNat ∧ c.toNat ≤ 0x309F
  · simp [h1, h2]
  by_cases h3 : 0x30A0 ≤ c.toNat ∧ c.toNat ≤ 0x30FF
  · simp [h1, h2, h3]
  by_cases h4 : 0x3400 ≤ c.toNat ∧ c.toNat ≤ 0x4DBF
  · simp [h1, h2, h3, h4]
  by_cases h5 : 0x20000 ≤ c.toNat ∧ c.toNat ≤ 0x2A6DF
  · simp [h1, h2, h3, h4, h5]
  · simp [h1, h2, h3, h4, h5]

/-- C7: when the chunk size is at least the byte length of the text,
`process_text_chunks` takes the small-text early return and produces
exactly the output of `justify_text` on the whole text. -/
theorem chunks_small_eq_justify (text : List Char) (w chunkSize : Nat)
    (hw : 0 < w) (h : byteLen text ≤ chunkSize) :
    process_text_chunks text w chunkSize = some (some (justify_text text w)) := by
  unfold process_text_chunks
  simp [h]

/-- Witness for `chunks_small_eq_justify` at text `"hi"`, width 5,
chunk size 10. -/
theorem chunks_small_eq_justify_witness :
    0 < 5 ∧ byteLen ['h', 'i'] ≤ 10 ∧
      process_text_chunks ['h', 'i'] 5 10 = some (some (justify_text ['h', 'i'] 5)) :=
  ⟨by decide, by decide, chunks_small_eq_justify ['h', 'i'] 5 10 (by decide) (by decide)⟩

/-- C10: `justify_text` on the empty string splits it into the single
empty logical line, which is emitted as the single empty output line, so
the result is the empty string with no terminator. -/
theorem justify_empty (w : Nat) (hw : 0 < w) : justify_text [] w = [] := rfl

/-- Witness for `justify_empty` at width 7. -/
theorem justify_empty_witness : 0 < 7 ∧ justify_text [] 7 = [] :=
  ⟨by decide, justify_empty 7 (by decide)⟩

theorem utf8Len_pos (c : Char) : 1 ≤ utf8Len c := by
  unfold utf8Len
  split_ifs <;> omega

theorem byteLen_cons (c : Char) (l : List Char) :
    byteLen (c :: l) = utf8Len c + byteLen l := by
  simp [byteLen]

theorem byteLen_append (a b : List Char) :
    byteLen (a ++ b) = byteLen a + byteLen b := by
  simp [byteLen]

theorem byteLen_pos (l : List Char) (h : l ≠ []) : 0 < byteLen l := by
  cases l with
  | nil => simp at h
  | cons c cs =>
    have := utf8Len_pos c
    rw [byteLen_cons]
    omega

/-- With `chunk_size = 0` and a non-empty remaining suffix the chunk loop
makes no progress (`end = min(start + 0, text_len) = start`), so it
exhausts every amount of fuel: the Rust `while` loop runs forever. -/
theorem chunkLoop_zero_stuck (w : Nat) (rest : List Char) (h : rest ≠ []) :
    ∀ fuel, chunkLoop w 0 fuel rest = none := by
  intro fuel
  induction fuel with
  | zero => simp [chunkLoop, h]
  | succ n ih =>
    have hb : ¬ byteLen rest ≤ 0 := by
      have := byteLen_pos rest h
      omega
    have hsp : splitAtBytes 0 rest = some ([], rest) := by simp [splitAtBytes]
    simp only [chunkLoop, if_neg h, if_neg hb, hsp, ih]

/-- C1 counterexample: on `"你好"` (two three-byte characters) with chunk
size 1, the first chunk boundary `&text[0..1]` falls inside the first
character, so the Rust slice panics — modelled as the `some none` result. -/
theorem chunks_midchar_panics :
    process_text_chunks ['你', '好'] 10 1 = some none := by decide

/-- C2 counterexample: on the non-empty text `"a"` with chunk size 0 the
loop never advances, so the fuelled model returns `none` (divergence; by
`chunkLoop_zero_stuck` no amount of fuel changes this). -/
theorem chunks_zero_size_stuck :
    process_text_chunks ['a'] 5 0 = none := by decide

/-- C6 counterexample: `justify_text_cjk` turns the single input terminator
`\r\n` of `"一\r\n二"` into TWO canonical terminators, because `\r` and
`\n` each trigger their own `result.push_str("\r\n")`. -/
theorem cjk_crlf_duplicated :
    justify_text_cjk ['一', '\r', '\n', '二'] 10 ≠ ['一', '\r', '\n', '二'] ∧
    justify_text_cjk ['一', '\r', '\n', '二'] 10 =
      ['一', '\r', '\n', '\r', '\n', '二'] := by decide

/-- C9 counterexample: on the empty text `get_text_stats` reports
`lineCount = 0` (Rust `lines()` yields no lines at all), not the
terminator-count-plus-one value `0 + 1 = 1` the claim requires. -/
theorem stats_lineCount_empty :
    (get_text_stats []).lineCount = 0 ∧ (get_text_stats []).lineCount ≠ 0 + 1 := by
  decide

theorem byteLen_replicate (n : Nat) (c : Char) :
    byteLen (List.replicate n c) = n * utf8Len c := by
  induction n with
  | zero => simp [byteLen]
  | succ k ih =>
    rw [List.replicate_succ, byteLen_cons, ih]
    ring

/-- C8: the size check of `validate_text_input` counts BYTES (`text.len()`
in Rust is the UTF-8 byte length), while the spec and the function's own
error message speak of characters: a text of 166,667 three-byte CJK
characters has only 166,667 ≤ 500,000 characters, yet it is rejected as
too large because its 500,001 bytes exceed the limit. -/
theorem validate_counts_bytes_bug :
    (List.replicate 166667 '你').length ≤ 500000 ∧
    validate_text_input (List.replicate 166667 '你') =
      "Text too large: maximum 500,000 characters supported" := by
  constructor
  · rw [List.length_replicate]
    omega
  · have hne : List.replicate 166667 '你' ≠ [] := by
      intro h
      have h2 := congrArg List.length h
      rw [List.length_replicate] at h2
      simp at h2
    have h3 : utf8Len '你' = 3 := by decide
    have hb : byteLen (List.replicate 166667 '你') = 500001 := by
      rw [byteLen_replicate, h3]
    unfold validate_text_input
    rw [if_neg hne, if_pos (by omega)]

theorem splitAtBytes_spec (n : Nat) (l : List Char) (a b : List Char)
    (h : splitAtBytes n l = some (a, b)) : a ++ b = l ∧ byteLen a = n := by
  induction l generalizing n a b with
  | nil =>
    cases n with
    | zero =>
      simp [splitAtBytes] at h
      obtain ⟨ha, hb⟩ := h
      subst ha
      subst hb
      simp [byteLen]
    | succ m => simp [splitAtBytes] at h
  | cons c cs ih =>
    cases n with
    | zero =>
      simp [splitAtBytes] at h
      obtain ⟨ha, hb⟩ := h
      subst ha
      subst hb
      simp [byteLen]
    | succ m =>
      rw [splitAtBytes] at h
      by_cases hle : utf8Len c ≤ m + 1
      · rw [if_pos hle] at h
        cases hsp : splitAtBytes (m + 1 - utf8Len c) cs with
        | none => rw [hsp] at h; simp at h
        | some p =>
          obtain ⟨a2, b2⟩ := p
          rw [hsp] at h
          simp at h
          obtain ⟨ha, hb⟩ := h
          obtain ⟨hcat, hlen⟩ := ih (m + 1 - utf8Len c) a2 b2 hsp
          subst ha
          subst hb
          constructor
          · simp [hcat]
          · rw [byteLen_cons, hlen]
            omega
      · rw [if_neg hle] at h
        simp at h

theorem length_le_byteLen (l : List Char) : l.length ≤ byteLen l := by
  induction l with
  | nil => simp [byteLen]
  | cons c cs ih =>
    rw [byteLen_cons]
    have := utf8Len_pos c
    simp only [List.length_cons]
    omega

/-- With a positive chunk size every loop iteration consumes at least one
character, so `byteLen text` fuel is always enough: the loop cannot
exhaust it. -/
theorem chunkLoop_pos_size_total (w chunkSize : Nat) (hcs : 1 ≤ chunkSize) :
    ∀ (fuel : Nat) (rest : List Char), rest.length ≤ fuel →
      chunkLoop w chunkSize fuel rest ≠ none := by
  intro fuel
  induction fuel with
  | zero =>
    intro rest hlen
    have hr : rest = [] := List.eq_nil_of_length_eq_zero (by omega)
    subst hr
    simp [chunkLoop]
  | succ n ih =>
    intro rest hlen
    rw [chunkLoop]
    by_cases hre : rest = []
    · simp [hre]
    rw [if_neg hre]
    by_cases hbl : byteLen rest ≤ chunkSize
    · simp [hbl]
    rw [if_neg hbl]
    cases hsp : splitAtBytes chunkSize rest with
    | none => simp
    | some p =>
      obtain ⟨chunk, rest2⟩ := p
      obtain ⟨hcat, hblen⟩ := splitAtBytes_spec chunkSize rest chunk rest2 hsp
      have hchunk_ne : chunk ≠ [] := by
        intro hc
        subst hc
        simp [byteLen] at hblen
        omega
      have hlen2 : rest2.length ≤ n := by
        have h1 : chunk.length + rest2.length = rest.length := by
          rw [← hcat]
          simp
        have h2 : 1 ≤ chunk.length := by
          cases chunk with
          | nil => exact absurd rfl hchunk_ne
          | cons x xs => simp
        omega
      have hnn := ih rest2 hlen2
      cases hcl : chunkLoop w chunkSize n rest2 with
      | none => exact absurd hcl hnn
      | some o => cases o <;> simp [hcl]

/-- C2 amended: with any positive chunk size, `process_text_chunks`
terminates on every text and every max width (it returns some outcome,
possibly the slice panic); every other exported operation of the engine is
a structurally recursive total function.  At chunk size 0, however, a text
longer than the chunk makes the loop spin forever (`chunks_zero_size_stuck`
and `chunkLoop_zero_stuck`). -/
theorem chunks_terminate_pos_size (text : List Char) (w chunkSize : Nat)
    (hcs : 1 ≤ chunkSize) :
    ∃ r : Option (List Char), process_text_chunks text w chunkSize = some r := by
  unfold process_text_chunks
  by_cases h : byteLen text ≤ chunkSize
  · exact ⟨some (justify_text text w), by simp [h]⟩
  · rw [if_neg h]
    have hne := chunkLoop_pos_size_total w chunkSize hcs (byteLen text) text
      (length_le_byteLen text)
    cases hcl : chunkLoop w chunkSize (byteLen text) text with
    | none => exact absurd hcl hne
    | some r => exact ⟨r, rfl⟩

/-- Witness for `chunks_terminate_pos_size` at text `"abc"`, width 1,
chunk size 2. -/
theorem chunks_terminate_pos_size_witness :
    1 ≤ 2 ∧ ∃ r, process_text_chunks ['a', 'b', 'c'] 1 2 = some r :=
  ⟨by decide, chunks_terminate_pos_size ['a', 'b', 'c'] 1 2 (by decide)⟩

theorem byteLen_ascii (l : List Char) (h : ∀ c ∈ l, utf8Len c = 1) :
    byteLen l = l.length := by
  induction l with
  | nil => simp [byteLen]
  | cons c cs ih =>
    rw [byteLen_cons, h c (by simp), ih (fun x hx => h x (by simp [hx]))]
    simp [Nat.add_comm]

theorem splitAtBytes_ascii (n : Nat) (l : List Char)
    (h1 : ∀ c ∈ l, utf8Len c = 1) (h2 : n ≤ l.length) :
    splitAtBytes n l = some (l.take n, l.drop n) := by
  induction l generalizing n with
  | nil =>
    have hn : n = 0 := by
      simp at h2
      omega
    subst hn
    simp [splitAtBytes]
  | cons c cs ih =>
    cases n with
    | zero => simp [splitAtBytes]
    | succ m =>
      have hc : utf8Len c = 1 := h1 c (by simp)
      rw [splitAtBytes, if_pos (by omega), hc]
      simp only [Nat.add_sub_cancel]
      rw [ih m (fun x hx => h1 x (by simp [hx])) (by simp at h2; omega)]
      simp

/-- On all-single-byte text with a positive chunk size every chunk boundary
is a character boundary, so no slice panics and the loop returns normally. -/
theorem chunkLoop_ascii (w chunkSize : Nat) (hcs : 1 ≤ chunkSize) :
    ∀ (fuel : Nat) (rest : List Char), rest.length ≤ fuel →
      (∀ c ∈ rest, utf8Len c = 1) →
      ∃ out, chunkLoop w chunkSize fuel rest = some (some out) := by
  intro fuel
  induction fuel with
  | zero =>
    intro rest hlen _
    have hr : rest = [] := List.eq_nil_of_length_eq_zero (by omega)
    subst hr
    exact ⟨[], by simp [chunkLoop]⟩
  | succ n ih =>
    intro rest hlen hascii
    by_cases hre : rest = []
    · exact ⟨[], by simp [chunkLoop, hre]⟩
    by_cases hbl : byteLen rest ≤ chunkSize
    · exact ⟨justify_text rest w, by rw [chunkLoop, if_neg hre, if_pos hbl]⟩
    have hlenrest : byteLen rest = rest.length := byteLen_ascii rest hascii
    have hcslen : chunkSize ≤ rest.length := by omega
    have hsp := splitAtBytes_ascii chunkSize rest hascii hcslen
    have hdroplen : (rest.drop chunkSize).length ≤ n := by
      rw [List.length_drop]
      omega
    have hdropascii : ∀ c ∈ rest.drop chunkSize, utf8Len c = 1 :=
      fun c hc => hascii c (List.mem_of_mem_drop hc)
    obtain ⟨tail, htail⟩ := ih (rest.drop chunkSize) hdroplen hdropascii
    refine ⟨justify_text (rest.take chunkSize) w ++
      (if endsWithCRLF (justify_text (rest.take chunkSize) w) then []
       else ['\r', '\n']) ++ tail, ?_⟩
    rw [chunkLoop, if_neg hre, if_neg hbl]
    simp only [hsp, htail]

/-- C1 amended: `process_text_chunks` returns a wrapped string whenever its
chunk boundaries fall on character boundaries — in particular for any text
of single-byte characters with a positive chunk size, and (via the direct
path) whenever `chunk_size ≥` the byte length.  When a boundary falls
inside a multi-byte character the byte slice `&text[start..end]` fails, so
the operation panics instead of returning (`chunks_midchar_panics`). -/
theorem chunks_ascii_total (text : List Char) (w chunkSize : Nat)
    (hcs : 1 ≤ chunkSize) (hascii : ∀ c ∈ text, utf8Len c = 1) :
    ∃ out, process_text_chunks text w chunkSize = some (some out) := by
  unfold process_text_chunks
  by_cases h : byteLen text ≤ chunkSize
  · exact ⟨justify_text text w, by simp [h]⟩
  · rw [if_neg h]
    exact chunkLoop_ascii w chunkSize hcs (byteLen text) text
      (length_le_byteLen text) hascii

/-- Witness for `chunks_ascii_total` at text `"abc"`, width 2, chunk
size 1. -/
theorem chunks_ascii_total_witness :
    1 ≤ 1 ∧ (∀ c ∈ ['a', 'b', 'c'], utf8Len c = 1) ∧
      ∃ out, process_text_chunks ['a', 'b', 'c'] 2 1 = some (some out) :=
  ⟨by decide, by decide, chunks_ascii_total ['a', 'b', 'c'] 2 1 (by decide) (by decide)⟩

theorem consHead_ne_nil (c : Char) (L : List (List Char)) : consHead c L ≠ [] := by
  cases L <;> simp [consHead]

theorem splitCRLF_crlf (l : List Char) :
    splitCRLF ('\r' :: '\n' :: l) = [] :: splitCRLF l := by
  rw [splitCRLF.eq_def]
  simp

theorem splitCRLF_cons (c : Char) (l : List Char) (hc : c ≠ '\r') :
    splitCRLF (c :: l) = consHead c (splitCRLF l) := by
  rw [splitCRLF.eq_def]
  simp [hc]

theorem splitCRLF_ne_nil (l : List Char) : splitCRLF l ≠ [] := by
  cases l with
  | nil => simp [splitCRLF]
  | cons c rest =>
    by_cases hc : c = '\r'
    · subst hc
      cases rest with
      | nil =>
        rw [splitCRLF.eq_def]
        simp only []
        rw [ite_self]
        exact consHead_ne_nil _ _
      | cons c2 rest2 =>
        by_cases h2 : c2 = '\n'
        · subst h2
          rw [splitCRLF_crlf]
          simp
        · rw [splitCRLF.eq_def]
          simp only [if_neg h2]
          exact consHead_ne_nil _ _
    · rw [splitCRLF_cons c rest hc]
      exact consHead_ne_nil _ _

theorem lineWidth_cons (c : Char) (l : List Char) :
    lineWidth (c :: l) = get_char_width c + lineWidth l := by
  simp [lineWidth]

/-- Invariant of the CJK loop: in the lines of the text it appends, the
still-open first line fits the budget together with the width `curw`
already on it, and every later line of two or more characters fits the
budget outright. -/
theorem cjk_go_lines_ok (w : Nat) (cs : List Char) : ∀ (curw : Nat) h t,
    splitCRLF (justify_text_cjk_go w curw cs) = h :: t →
      (h ≠ [] → curw + lineWidth h ≤ w) ∧
      (∀ l ∈ t, 2 ≤ l.length → lineWidth l ≤ w) := by
  induction cs with
  | nil =>
    intro curw h t heq
    rw [justify_text_cjk_go] at heq
    rw [splitCRLF] at heq
    obtain ⟨hh, ht⟩ := List.cons.inj heq
    constructor
    · intro hne
      exact absurd hh.symm hne
    · intro l hl
      rw [← ht] at hl
      simp at hl
  | cons c cs' ih =>
    intro curw h t heq
    rw [justify_text_cjk_go] at heq
    by_cases hterm : c = '\r' ∨ c = '\n'
    · rw [if_pos hterm, splitCRLF_crlf] at heq
      obtain ⟨hh, ht⟩ := List.cons.inj heq
      constructor
      · intro hne
        exact absurd hh.symm hne
      · intro l hl hlen
        rw [← ht] at hl
        cases hsp : splitCRLF (justify_text_cjk_go w 0 cs') with
        | nil => exact absurd hsp (splitCRLF_ne_nil _)
        | cons h1 t1 =>
          obtain ⟨p1, p2⟩ := ih 0 h1 t1 hsp
          rw [hsp] at hl
          rcases List.mem_cons.mp hl with hcase | hcase
          · subst hcase
            have hne : l ≠ [] := by
              intro hnil
              rw [hnil] at hlen
              simp at hlen
            have := p1 hne
            omega
          · exact p2 l hcase hlen
    · push_neg at hterm
      obtain ⟨hcr, hcn⟩ := hterm
      rw [if_neg (by push_neg; exact ⟨hcr, hcn⟩)] at heq
      by_cases hov : curw + get_char_width c > w
      · rw [if_pos hov, splitCRLF_crlf, splitCRLF_cons c _ hcr] at heq
        cases hsp : splitCRLF (justify_text_cjk_go w (get_char_width c) cs') with
        | nil => exact absurd hsp (splitCRLF_ne_nil _)
        | cons h1 t1 =>
          rw [hsp] at heq
          rw [consHead] at heq
          obtain ⟨hh, ht⟩ := List.cons.inj heq
          obtain ⟨p1, p2⟩ := ih (get_char_width c) h1 t1 hsp
          constructor
          · intro hne
            exact absurd hh.symm hne
          · intro l hl hlen
            rw [← ht] at hl
            rcases List.mem_cons.mp hl with hcase | hcase
            · subst hcase
              rw [lineWidth_cons]
              by_cases hh1 : h1 = []
              · subst hh1
                simp at hlen
              · have := p1 hh1
                omega
            · exact p2 l hcase hlen
      · rw [if_neg hov, splitCRLF_cons c _ hcr] at heq
        cases hsp : splitCRLF (justify_text_cjk_go w (curw + get_char_width c) cs') with
        | nil => exact absurd hsp (splitCRLF_ne_nil _)
        | cons h1 t1 =>
          rw [hsp] at heq
          rw [consHead] at heq
          obtain ⟨hh, ht⟩ := List.cons.inj heq
          obtain ⟨p1, p2⟩ := ih (curw + get_char_width c) h1 t1 hsp
          constructor
          · intro hne
            rw [← hh, lineWidth_cons]
            by_cases hh1 : h1 = []
            · subst hh1
              simp [lineWidth]
              omega
            · have := p1 hh1
              omega
          · intro l hl hlen
            rw [← ht] at hl
            exact p2 l hl hlen

/-- C3: every output line of CJK-mode wrapping that has at least two
characters has total `get_char_width` width at most the max width (a line
can exceed the budget only when a single character alone overflows it);
and the spec example holds: `justify_text` breaks `"你好世界"` at width 2
into one character per line. -/
theorem cjk_lines_within_width (text : List Char) (w : Nat) (hw : 0 < w) :
    (∀ l ∈ splitCRLF (justify_text_cjk text w), 2 ≤ l.length → lineWidth l ≤ w) ∧
    justify_text ['你', '好', '世', '界'] 2 =
      ['你', '\r', '\n', '好', '\r', '\n', '世', '\r', '\n', '界'] := by
  constructor
  · unfold justify_text_cjk
    cases hsp : splitCRLF (justify_text_cjk_go w 0 text) with
    | nil => exact absurd hsp (splitCRLF_ne_nil _)
    | cons h t =>
      obtain ⟨p1, p2⟩ := cjk_go_lines_ok w text 0 h t hsp
      intro l hl hlen
      rcases List.mem_cons.mp hl with hcase | hcase
      · subst hcase
        have hne : l ≠ [] := by
          intro hnil
          rw [hnil] at hlen
          simp at hlen
        have := p1 hne
        omega
      · exact p2 l hcase hlen
  · decide

/-- Witness for `cjk_lines_within_width` at text `"你好世界"`, width 2. -/
theorem cjk_lines_within_width_witness :
    0 < 2 ∧
    (∀ l ∈ splitCRLF (justify_text_cjk ['你', '好', '世', '界'] 2),
      2 ≤ l.length → lineWidth l ≤ 2) :=
  ⟨by decide, (cjk_lines_within_width ['你', '好', '世', '界'] 2 (by decide)).1⟩

theorem splitOnPred_ne_nil (p : Char → Bool) (l : List Char) : splitOnPred p l ≠ [] := by
  cases l with
  | nil => simp [splitOnPred]
  | cons c rest =>
    rw [splitOnPred]
    by_cases hp : p c = true
    · simp [hp]
    · rw [if_neg hp]
      exact consHead_ne_nil _ _

theorem splitOnPred_parts_not_sat (p : Char → Bool) (l : List Char) :
    ∀ part ∈ splitOnPred p l, ∀ c ∈ part, p c = false := by
  induction l with
  | nil =>
    intro part hpart
    simp [splitOnPred] at hpart
    subst hpart
    simp
  | cons c rest ih =>
    intro part hpart
    rw [splitOnPred] at hpart
    by_cases hp : p c = true
    · rw [if_pos hp] at hpart
      rcases List.mem_cons.mp hpart with h | h
      · subst h
        simp
      · exact ih part h
    · rw [if_neg hp] at hpart
      cases hsp : splitOnPred p rest with
      | nil => exact absurd hsp (splitOnPred_ne_nil p rest)
      | cons h1 t1 =>
        rw [hsp, consHead] at hpart
        rcases List.mem_cons.mp hpart with h | h
        · subst h
          intro x hx
          rcases List.mem_cons.mp hx with hx2 | hx2
          · subst hx2
            exact Bool.eq_false_iff.mpr hp
          · exact ih h1 (hsp ▸ List.mem_cons_self h1 t1) x hx2
        · exact ih part (hsp ▸ List.mem_cons_of_mem h1 h)

theorem split_whitespace_words (l : List Char) :
    ∀ word ∈ split_whitespace l,
      word ≠ [] ∧ ∀ c ∈ word, isRustWhitespace c = false := by
  intro word hword
  unfold split_whitespace at hword
  rw [List.mem_filter] at hword
  obtain ⟨hmem, hne⟩ := hword
  refine ⟨?_, splitOnPred_parts_not_sat _ _ word hmem⟩
  simp at hne
  exact hne

theorem not_ws_ne_term (c : Char) (h : isRustWhitespace c = false) :
    c ≠ '\r' ∧ c ≠ '\n' := by
  constructor <;> intro heq <;> subst heq <;> exact absurd h (by decide)

theorem not_ws_ne_space (c : Char) (h : isRustWhitespace c = false) : c ≠ ' ' := by
  intro heq
  subst heq
  exact absurd h (by decide)

/-- Invariant of the word loop: provided the words carry no whitespace and
the open line satisfies it, every emitted line that contains a space (i.e.
holds at least two words) has byte length within the budget. -/
theorem english_lines_spaces (w : Nat) : ∀ (ws : List (List Char)) (cur : List Char),
    (∀ word ∈ ws, ∀ c ∈ word, isRustWhitespace c = false) →
    (1 ≤ cur.count ' ' → byteLen cur ≤ w) →
    ∀ l ∈ englishLines w ws cur, 1 ≤ l.count ' ' → byteLen l ≤ w := by
  intro ws
  induction ws with
  | nil =>
    intro cur hws hcur l hl
    rw [englishLines] at hl
    by_cases hc : cur = []
    · simp [hc] at hl
    · rw [if_neg hc] at hl
      simp at hl
      subst hl
      exact hcur
  | cons word rest ih =>
    intro cur hws hcur l hl
    have hwrest : ∀ x ∈ rest, ∀ c ∈ x, isRustWhitespace c = false :=
      fun x hx => hws x (List.mem_cons_of_mem _ hx)
    have hwordinv : 1 ≤ word.count ' ' → byteLen word ≤ w := by
      intro hcount
      exfalso
      have hnospace : ' ' ∉ word := by
        intro hsp
        exact not_ws_ne_space ' ' (hws word (List.mem_cons_self _ _) ' ' hsp) rfl
      rw [List.count_eq_zero.mpr hnospace] at hcount
      omega
    rw [englishLines] at hl
    by_cases hfit : byteLen cur + (if cur = [] then 0 else 1) + byteLen word ≤ w
    · rw [if_pos hfit] at hl
      refine ih _ hwrest ?_ l hl
      intro _
      by_cases hc : cur = []
      · subst hc
        have hbn : byteLen ([] : List Char) = 0 := rfl
        simpa [hbn] using hfit
      · rw [if_neg hc] at hfit
        rw [byteLen_append, byteLen_append, if_neg hc]
        have h1 : byteLen [' '] = 1 := by decide
        rw [h1]
        omega
    · rw [if_neg hfit] at hl
      by_cases hc : cur = []
      · rw [if_pos hc] at hl
        exact ih word hwrest hwordinv l hl
      · rw [if_neg hc] at hl
        rcases List.mem_cons.mp hl with h | h
        · subst h
          exact hcur
        · exact ih word hwrest hwordinv l h

/-- A current line that already overflows the budget is always flushed as
its own line (every following word fails the fit test). -/
theorem english_lines_self (w : Nat) (ws : List (List Char)) (cur : List Char)
    (hcur : w < byteLen cur) : cur ∈ englishLines w ws cur := by
  have hc : cur ≠ [] := by
    intro h
    subst h
    simp [byteLen] at hcur
  cases ws with
  | nil =>
    rw [englishLines, if_neg hc]
    simp
  | cons v vs =>
    have hnofit : ¬ (byteLen cur + (if cur = [] then 0 else 1) + byteLen v ≤ w) := by
      rw [if_neg hc]
      omega
    rw [englishLines, if_neg hnofit, if_neg hc]
    exact List.mem_cons_self _ _

/-- C4 core, second half: an oversized word always ends up as a line of its
own in the output of the word loop — it is never split. -/
theorem english_lines_oversized (w : Nat) : ∀ (ws : List (List Char)) (word : List Char),
    word ∈ ws → w < byteLen word → ∀ cur, word ∈ englishLines w ws cur := by
  intro ws
  induction ws with
  | nil =>
    intro word h
    simp at h
  | cons v vs ih =>
    intro word hmem hbig cur
    rcases List.mem_cons.mp hmem with heq | htail
    · subst heq
      have hnofit : ¬ (byteLen cur + (if cur = [] then 0 else 1) + byteLen word ≤ w) := by
        by_cases hc : cur = [] <;> simp [hc] <;> omega
      rw [englishLines, if_neg hnofit]
      by_cases hc : cur = []
      · rw [if_pos hc]
        exact english_lines_self w vs word hbig
      · rw [if_neg hc]
        exact List.mem_cons_of_mem _ (english_lines_self w vs word hbig)
    · rw [englishLines]
      by_cases hfit : byteLen cur + (if cur = [] then 0 else 1) + byteLen v ≤ w
      · rw [if_pos hfit]
        exact ih word htail hbig _
      · rw [if_neg hfit]
        by_cases hc : cur = []
        · rw [if_pos hc]
          exact ih word htail hbig _
        · rw [if_neg hc]
          exact List.mem_cons_of_mem _ (ih word htail hbig _)

/-- Lines built by the word loop contain no terminator characters: words
are whitespace-free and the only separator inserted is a space. -/
theorem english_lines_no_term (w : Nat) : ∀ (ws : List (List Char)) (cur : List Char),
    (∀ word ∈ ws, ∀ c ∈ word, isRustWhitespace c = false) →
    (∀ c ∈ cur, c ≠ '\r' ∧ c ≠ '\n') →
    ∀ l ∈ englishLines w ws cur, ∀ c ∈ l, c ≠ '\r' ∧ c ≠ '\n' := by
  intro ws
  induction ws with
  | nil =>
    intro cur hws hcur l hl
    rw [englishLines] at hl
    by_cases hc : cur = []
    · simp [hc] at hl
    · rw [if_neg hc] at hl
      simp at hl
      subst hl
      exact hcur
  | cons word rest ih =>
    intro cur hws hcur l hl
    have hwrest : ∀ x ∈ rest, ∀ c ∈ x, isRustWhitespace c = false :=
      fun x hx => hws x (List.mem_cons_of_mem _ hx)
    have hwordterm : ∀ c ∈ word, c ≠ '\r' ∧ c ≠ '\n' :=
      fun c hc => not_ws_ne_term c (hws word (List.mem_cons_self _ _) c hc)
    rw [englishLines] at hl
    by_cases hfit : byteLen cur + (if cur = [] then 0 else 1) + byteLen word ≤ w
    · rw [if_pos hfit] at hl
      refine ih _ hwrest ?_ l hl
      intro c hc
      rcases List.mem_append.mp hc with h | h
      · rcases List.mem_append.mp h with h2 | h2
        · exact hcur c h2
        · by_cases hce : cur = []
          · rw [if_pos hce] at h2
            simp at h2
          · rw [if_neg hce] at h2
            simp at h2
            subst h2
            exact ⟨by decide, by decide⟩
      · exact hwordterm c h
    · rw [if_neg hfit] at hl
      by_cases hc : cur = []
      · rw [if_pos hc] at hl
        exact ih word hwrest hwordterm l hl
      · rw [if_neg hc] at hl
        rcases List.mem_cons.mp hl with h | h
        · subst h
          exact hcur
        · exact ih word hwrest hwordterm l h

theorem splitCRLF_no_cr (l : List Char) (h : ∀ c ∈ l, c ≠ '\r') :
    splitCRLF l = [l] := by
  induction l with
  | nil => simp [splitCRLF]
  | cons c rest ih =>
    rw [splitCRLF_cons c rest (h c (List.mem_cons_self _ _))]
    rw [ih (fun x hx => h x (List.mem_cons_of_mem _ hx))]
    rfl

theorem splitCRLF_append_crlf (x z : List Char) (hx : ∀ c ∈ x, c ≠ '\r') :
    splitCRLF (x ++ '\r' :: '\n' :: z) = x :: splitCRLF z := by
  induction x with
  | nil => simp [splitCRLF_crlf]
  | cons c cs ih =>
    rw [List.cons_append, splitCRLF_cons c _ (hx c (List.mem_cons_self _ _))]
    rw [ih (fun y hy => hx y (List.mem_cons_of_mem _ hy))]
    rfl

/-- Splitting the CRLF-joined lines back recovers them, provided no line
contains a `\r` of its own. -/
theorem splitCRLF_intercalateCRLF (L : List (List Char)) (hL : L ≠ [])
    (h : ∀ l ∈ L, ∀ c ∈ l, c ≠ '\r') :
    splitCRLF (intercalateCRLF L) = L := by
  induction L with
  | nil => exact absurd rfl hL
  | cons x xs ih =>
    cases xs with
    | nil =>
      rw [intercalateCRLF]
      exact splitCRLF_no_cr x (h x (List.mem_cons_self _ _))
    | cons y ys =>
      rw [intercalateCRLF]
      rw [splitCRLF_append_crlf x _ (h x (List.mem_cons_self _ _))]
      rw [ih (by simp) (fun l hl => h l (List.mem_cons_of_mem _ hl))]

/-- C4: every output line of word-mode wrapping that contains at least two
words (equivalently, at least one separating space: words are non-empty
and whitespace-free, so a line holds `count ' ' + 1` words) has byte
length at most the max width; and a single word longer than the max width
is placed whole as an output line of its own, never split. -/
theorem english_lines_within_width (text : List Char) (w : Nat) (hw : 0 < w) :
    (∀ l ∈ splitCRLF (justify_text_english text w),
      1 ≤ l.count ' ' → byteLen l ≤ w) ∧
    (∀ word ∈ split_whitespace text, w < byteLen word →
      word ∈ splitCRLF (justify_text_english text w)) := by
  have hwsfalse : ∀ word ∈ split_whitespace text,
      ∀ c ∈ word, isRustWhitespace c = false :=
    fun word hw2 => (split_whitespace_words text word hw2).2
  have hnoterm : ∀ l ∈ englishLines w (split_whitespace text) [],
      ∀ c ∈ l, c ≠ '\r' ∧ c ≠ '\n' :=
    english_lines_no_term w (split_whitespace text) [] hwsfalse (by simp)
  have hnocr : ∀ l ∈ englishLines w (split_whitespace text) [],
      ∀ c ∈ l, c ≠ '\r' :=
    fun l hl c hc => (hnoterm l hl c hc).1
  constructor
  · intro l hl
    unfold justify_text_english at hl
    by_cases hL : englishLines w (split_whitespace text) [] = []
    · rw [hL] at hl
      have h0 : intercalateCRLF [] = [] := rfl
      rw [h0] at hl
      have h1 : splitCRLF [] = [[]] := rfl
      rw [h1] at hl
      simp at hl
      subst hl
      intro hcount
      simp at hcount
    · rw [splitCRLF_intercalateCRLF _ hL hnocr] at hl
      exact english_lines_spaces w (split_whitespace text) [] hwsfalse (by simp) l hl
  · intro word hword hbig
    have hmem : word ∈ englishLines w (split_whitespace text) [] :=
      english_lines_oversized w (split_whitespace text) word hword hbig []
    have hL : englishLines w (split_whitespace text) [] ≠ [] :=
      List.ne_nil_of_mem hmem
    unfold justify_text_english
    rw [splitCRLF_intercalateCRLF _ hL hnocr]
    exact hmem

/-- Witness for `english_lines_within_width` at text
`"supercalifragilisticexpialidocious is long"`, width 5. -/
theorem english_lines_within_width_witness :
    0 < 5 ∧
    (∀ l ∈ splitCRLF
        (justify_text_english "supercalifragilisticexpialidocious is long".data 5),
      1 ≤ l.count ' ' → byteLen l ≤ 5) ∧
    (∀ word ∈ split_whitespace "supercalifragilisticexpialidocious is long".data,
      5 < byteLen word →
        word ∈ splitCRLF
          (justify_text_english "supercalifragilisticexpialidocious is long".data 5)) :=
  ⟨by decide,
   (english_lines_within_width "supercalifragilisticexpialidocious is long".data 5
     (by decide)).1,
   (english_lines_within_width "supercalifragilisticexpialidocious is long".data 5
     (by decide)).2⟩

theorem crlfOnly_crlf_cons (l : List Char) :
    crlfOnly ('\r' :: '\n' :: l) = crlfOnly l := by
  rw [crlfOnly.eq_def]
  simp

theorem crlfOnly_cons (c : Char) (l : List Char) (h1 : c ≠ '\r') (h2 : c ≠ '\n') :
    crlfOnly (c :: l) = crlfOnly l := by
  rw [crlfOnly.eq_def]
  simp [h1, h2]

theorem crlfOnly_of_no_term (l : List Char) (h : ∀ c ∈ l, c ≠ '\r' ∧ c ≠ '\n') :
    crlfOnly l = true := by
  induction l with
  | nil => rfl
  | cons c rest ih =>
    obtain ⟨h1, h2⟩ := h c (List.mem_cons_self _ _)
    rw [crlfOnly_cons c rest h1 h2]
    exact ih (fun x hx => h x (List.mem_cons_of_mem _ hx))

theorem crlfOnly_append_aux (b : List Char) (hb : crlfOnly b = true) :
    ∀ (n : Nat) (a : List Char), a.length ≤ n → crlfOnly a = true →
      crlfOnly (a ++ b) = true := by
  intro n
  induction n with
  | zero =>
    intro a hlen _
    have ha : a = [] := List.eq_nil_of_length_eq_zero (by omega)
    subst ha
    simpa using hb
  | succ n ih =>
    intro a hlen ha
    cases a with
    | nil => simpa using hb
    | cons c rest =>
      by_cases h2 : c = '\n'
      · subst h2
        rw [crlfOnly.eq_def] at ha
        simp at ha
      by_cases h1 : c = '\r'
      · subst h1
        cases rest with
        | nil =>
          rw [crlfOnly.eq_def] at ha
          simp at ha
        | cons c2 rest2 =>
          by_cases h3 : c2 = '\n'
          · subst h3
            rw [crlfOnly_crlf_cons] at ha
            rw [List.cons_append, List.cons_append, crlfOnly_crlf_cons]
            refine ih rest2 ?_ ha
            simp at hlen
            omega
          · rw [crlfOnly.eq_def] at ha
            simp [h3] at ha
      · rw [crlfOnly_cons c rest h1 h2] at ha
        rw [List.cons_append, crlfOnly_cons c _ h1 h2]
        refine ih rest ?_ ha
        simp at hlen
        omega

theorem crlfOnly_append (a b : List Char) (ha : crlfOnly a = true)
    (hb : crlfOnly b = true) : crlfOnly (a ++ b) = true :=
  crlfOnly_append_aux b hb a.length a (le_refl _) ha

theorem cjk_go_crlfOnly (w : Nat) (cs : List Char) : ∀ curw,
    crlfOnly (justify_text_cjk_go w curw cs) = true := by
  induction cs with
  | nil =>
    intro curw
    rw [justify_text_cjk_go]
    rfl
  | cons c cs' ih =>
    intro curw
    rw [justify_text_cjk_go]
    by_cases hterm : c = '\r' ∨ c = '\n'
    · rw [if_pos hterm, crlfOnly_crlf_cons]
      exact ih 0
    · push_neg at hterm
      obtain ⟨h1, h2⟩ := hterm
      rw [if_neg (by push_neg; exact ⟨h1, h2⟩)]
      by_cases hov : curw + get_char_width c > w
      · rw [if_pos hov, crlfOnly_crlf_cons, crlfOnly_cons c _ h1 h2]
        exact ih _
      · rw [if_neg hov, crlfOnly_cons c _ h1 h2]
        exact ih _

theorem crlfOnly_intercalateCRLF (L : List (List Char))
    (h : ∀ l ∈ L, crlfOnly l = true) : crlfOnly (intercalateCRLF L) = true := by
  induction L with
  | nil => rfl
  | cons x xs ih =>
    cases xs with
    | nil =>
      rw [intercalateCRLF]
      exact h x (List.mem_cons_self _ _)
    | cons y ys =>
      rw [intercalateCRLF]
      refine crlfOnly_append x _ (h x (List.mem_cons_self _ _)) ?_
      rw [crlfOnly_crlf_cons]
      exact ih (fun l hl => h l (List.mem_cons_of_mem _ hl))

theorem english_crlfOnly (text : List Char) (w : Nat) :
    crlfOnly (justify_text_english text w) = true := by
  unfold justify_text_english
  refine crlfOnly_intercalateCRLF _ ?_
  intro l hl
  refine crlfOnly_of_no_term l ?_
  exact english_lines_no_term w (split_whitespace text) []
    (fun word hw2 => (split_whitespace_words text word hw2).2) (by simp) l hl

/-- C6 amended: every line terminator present in the output of
`justify_text` and of `justify_text_cjk` is the canonical two-character
CRLF (no stray bare `\r` or `\n` survives); but normalization is not
one-to-one: `justify_text_cjk` emits one CRLF for `\r` and another for
`\n`, so an input `\r\n` pair yields two terminators
(`cjk_crlf_duplicated`), and inside a non-CJK logical line a bare `\r` is
whitespace to the word splitter, so it becomes a space, not a
terminator. -/
theorem justify_terminators_canonical :
    (∀ (text : List Char) (w : Nat), crlfOnly (justify_text text w) = true) ∧
    (∀ (text : List Char) (w : Nat), crlfOnly (justify_text_cjk text w) = true) := by
  constructor
  · intro text w
    unfold justify_text
    refine crlfOnly_intercalateCRLF _ ?_
    intro l hl
    rw [List.mem_map] at hl
    obtain ⟨line, hline, hmap⟩ := hl
    subst hmap
    unfold justifyLine
    by_cases h1 : rustTrim line = []
    · rw [if_pos h1]
      rfl
    · rw [if_neg h1]
      by_cases h2 : is_cjk (rustTrim line) = true
      · rw [if_pos h2]
        exact cjk_go_crlfOnly w (rustTrim line) 0
      · rw [if_neg h2]
        exact english_crlfOnly (rustTrim line) w
  · intro text w
    exact cjk_go_crlfOnly w text 0

theorem splitOnPred_length (p : Char → Bool) (l : List Char) :
    (splitOnPred p l).length = l.countP p + 1 := by
  induction l with
  | nil => simp [splitOnPred]
  | cons c rest ih =>
    rw [splitOnPred]
    by_cases hp : p c = true
    · simp [hp, List.countP_cons, ih]
    · rw [if_neg hp]
      cases hsp : splitOnPred p rest with
      | nil => exact absurd hsp (splitOnPred_ne_nil p rest)
      | cons h1 t1 =>
        rw [consHead]
        have hlen : (h1 :: t1).length = rest.countP p + 1 := by
          rw [← hsp]
          exact ih
        simp only [List.length_cons] at hlen ⊢
        rw [List.countP_cons]
        simp [hp]
        omega

theorem splitOnPred_getLast_nil (p : Char → Bool) (l : List Char) :
    ((splitOnPred p l).getLast? = some []) ↔
      (l = [] ∨ ∃ c, l.getLast? = some c ∧ p c = true) := by
  induction l with
  | nil => simp [splitOnPred]
  | cons c rest ih =>
    rw [splitOnPred]
    by_cases hp : p c = true
    · rw [if_pos hp]
      cases rest with
      | nil =>
        simp [splitOnPred, hp]
      | cons r rs =>
        cases hsp : splitOnPred p (r :: rs) with
        | nil => exact absurd hsp (splitOnPred_ne_nil p _)
        | cons h1 t1 =>
          rw [List.getLast?_cons_cons, ← hsp, ih]
          constructor
          · intro hcase
            rcases hcase with h | h
            · exact absurd h (by simp)
            · right
              obtain ⟨c2, hc2, hpc2⟩ := h
              exact ⟨c2, by rw [List.getLast?_cons_cons]; exact hc2, hpc2⟩
          · intro hcase
            rcases hcase with h | h
            · exact absurd h (by simp)
            · right
              obtain ⟨c2, hc2, hpc2⟩ := h
              rw [List.getLast?_cons_cons] at hc2
              exact ⟨c2, hc2, hpc2⟩
    · rw [if_neg hp]
      cases hsp : splitOnPred p rest with
      | nil => exact absurd hsp (splitOnPred_ne_nil p rest)
      | cons h1 t1 =>
        rw [consHead]
        cases t1 with
        | nil =>
          have hlen := splitOnPred_length p rest
          rw [hsp] at hlen
          simp at hlen
          have hnone : ∀ x ∈ rest, ¬ p x = true := by
            intro x hx
            simp [hlen x hx]
          simp only [List.getLast?_singleton]
          constructor
          · intro hsome
            exact absurd (Option.some.inj hsome) (by simp)
          · intro hcase
            rcases hcase with h | h
            · exact absurd h (by simp)
            · obtain ⟨c2, hc2, hpc2⟩ := h
              cases rest with
              | nil =>
                simp at hc2
                subst hc2
                exact absurd hpc2 (by simp [hp])
              | cons r rs =>
                rw [List.getLast?_cons_cons] at hc2
                have hmem : c2 ∈ r :: rs := List.mem_of_mem_getLast? hc2
                exact absurd hpc2 (by simp [hnone c2 hmem])
        | cons u us =>
          rw [List.getLast?_cons_cons]
          have hrest_ne : rest ≠ [] := by
            intro h
            subst h
            simp [splitOnPred] at hsp
          have hgl : (u :: us).getLast? = (h1 :: u :: us).getLast? :=
            (List.getLast?_cons_cons).symm
          rw [hgl, ← hsp, ih]
          constructor
          · intro hcase
            rcases hcase with h | h
            · exact absurd h hrest_ne
            · right
              obtain ⟨c2, hc2, hpc2⟩ := h
              cases rest with
              | nil => exact absurd rfl hrest_ne
              | cons r rs =>
                exact ⟨c2, by rw [List.getLast?_cons_cons]; exact hc2, hpc2⟩
          · intro hcase
            rcases hcase with h | h
            · exact absurd h (by simp)
            · right
              obtain ⟨c2, hc2, hpc2⟩ := h
              cases rest with
              | nil => exact absurd rfl hrest_ne
              | cons r rs =>
                rw [List.getLast?_cons_cons] at hc2
                exact ⟨c2, hc2, hpc2⟩

theorem rustLines_length (l : List Char) :
    (rustLines l).length =
      l.countP (fun c => decide (c = '\n')) +
        (if l.getLast? = some '\n' ∨ l = [] then 0 else 1) := by
  unfold rustLines
  rw [List.length_map]
  by_cases hP : (splitOnPred (fun c => decide (c = '\n')) l).getLast? = some []
  · rw [if_pos hP, List.length_dropLast, splitOnPred_length]
    have hiff := (splitOnPred_getLast_nil (fun c => decide (c = '\n')) l).mp hP
    have hcond : l.getLast? = some '\n' ∨ l = [] := by
      rcases hiff with h | h
      · right
        exact h
      · left
        obtain ⟨c, hc, hq⟩ := h
        simp at hq
        rwa [hq] at hc
    rw [if_pos hcond]
    omega
  · rw [if_neg hP, splitOnPred_length]
    have hcond : ¬ (l.getLast? = some '\n' ∨ l = []) := by
      intro hc
      apply hP
      apply (splitOnPred_getLast_nil (fun c => decide (c = '\n')) l).mpr
      rcases hc with h | h
      · right
        exact ⟨'\n', h, by simp⟩
      · left
        exact h
    rw [if_neg hcond]

/-- C9 amended: `lineCount` follows the Rust `lines()` semantics, not
terminator-count-plus-one: it equals the number of `\n` characters plus
one more only when the text is non-empty and does not end with `\n`.  So
the empty text yields 0 lines, a trailing `\n` opens no extra line
(`"a\n"` counts 1, not 2), and a lone `\r` is not a terminator at all. -/
theorem stats_lineCount_formula (text : List Char) :
    (get_text_stats text).lineCount =
      text.countP (fun c => decide (c = '\n')) +
        (if text.getLast? = some '\n' ∨ text = [] then 0 else 1) := by
  have h : (get_text_stats text).lineCount = (rustLines text).length := rfl
  rw [h]
  exact rustLines_length text
